import Mathlib

/-!
Verification of the conversation turn-orchestration layer of the
OPEN-LLM-VTUBER-WEB-BACKEND repository.

Each definition is a shallow embedding of one Python function of the
repository (file and line references are given in the doc comments).
External collaborators that are not part of the repository (pydub audio
segments, the persistence backend, websocket transport) are modelled
abstractly as data or as event logs, following the capability contracts
stated in the specification.
-/

namespace OLVW

/-! ## Pre/post-processing hooks
Embedding of src/open_llm_vtuber/conversations/prepost_hooks.py. -/

/-- The module-level persona hint list (prepost_hooks.py lines 3-7). -/
def PERSONA_HINTS : List String :=
  ["ユーザーはコテコテの関西人です。",
   "ユーザーはゴリゴリの津軽弁です。",
   "ユーザーはアメリカ人です。"]

/-- The `raw` argument of `preprocess_user_text`: either a string or a raw
audio ndarray (modelled as its sample list). -/
inductive RawInput where
  | text (s : String)
  | audio (samples : List Int)

/-- The `user_ctx` dict, modelled as an association list. -/
def UserCtx := Option (List (String × String))

/-- Embedding of `preprocess_user_text` (prepost_hooks.py lines 9-21).
An ndarray input returns the empty string; otherwise the output is the
fixed coaching preamble, the hard-coded persona hint (`picked` is the
string constant on line 17, not a random choice from `PERSONA_HINTS`),
the optional `today_summary` context line and the raw input. -/
def preprocess_user_text (raw : RawInput) (userCtx : UserCtx) : String :=
  match raw with
  | .audio _ => ""
  | .text s =>
      let picked := "ユーザーはゴリゴリの津軽弁です。"
      let ctx := (((userCtx.getD []).lookup "today_summary").getD "")
      let preamble := "あなたはユーザーの背景に配慮して自然にコーチングします。"
      let ctxLine := if ctx = "" then "" else "【最新】" ++ ctx ++ "\n"
      preamble ++ "\n【追加情報】" ++ picked ++ "\n" ++ ctxLine ++ "【入力】" ++ s

/-! ## Audio payload preparation
Embedding of src/open_llm_vtuber/utils/stream_audio.py. -/

/-- Abstract model of a loaded pydub `AudioSegment` (external library):
`rmsChunks n` is the list of per-chunk RMS values (non-negative integers
in pydub) obtained by `make_chunks(audio, n)`, and `wavBase64` is the
base64 wav export. -/
structure AudioSegmentM where
  rmsChunks : Nat → List Nat
  wavBase64 : String

/-- A JSON value as it appears in the audio payload dict. -/
inductive JValue where
  | jstr (s : String)
  | jnum (q : ℚ)
  | jarr (vs : List ℚ)
  | jexprs (es : List Nat)
  | jnull
  deriving DecidableEq, Repr

/-- Embedding of `_get_volume_by_chunks` (stream_audio.py lines 6-22):
`max` on an empty list raises, an all-zero maximum raises, otherwise every
chunk RMS is divided by the maximum. -/
def get_volume_by_chunks (volumes : List Nat) : Except String (List ℚ) :=
  match volumes with
  | [] => .error "max() arg is an empty sequence"
  | v :: vs =>
      let maxVolume := (v :: vs).foldr Nat.max 0
      if maxVolume = 0 then .error "Audio is empty or all zero."
      else .ok ((v :: vs).map (fun (volume : Nat) => (volume : ℚ) / (maxVolume : ℚ)))

/-- Embedding of `prepare_audio_payload` (stream_audio.py lines 25-65).
The file-loading failure path is external (pydub); the loaded audio is
passed in directly. The result is the payload dict, modelled as an
ordered key-value list mirroring the dict literal on lines 55-62. -/
def prepare_audio_payload (audioPath : String) (audio : AudioSegmentM)
    (chunkLengthMs : Nat) (displayText : Option String)
    (expressionList : Option (List Nat)) :
    Except String (List (String × JValue)) :=
  if audioPath.isEmpty then .error "audio_path cannot be None or empty."
  else
    match get_volume_by_chunks (audio.rmsChunks chunkLengthMs) with
    | .error e => .error e
    | .ok volumes =>
        .ok [("type", .jstr "audio"),
             ("audio", .jstr audio.wavBase64),
             ("volumes", .jarr volumes),
             ("slice_length", .jnum (chunkLengthMs : ℚ)),
             ("text", match displayText with
                      | some t => .jstr t
                      | none => .jnull),
             ("expressions", match expressionList with
                             | some es => .jexprs es
                             | none => .jnull)]

/-- The key list of a successfully prepared payload (empty on error). -/
def payloadKeys (r : Except String (List (String × JValue))) : List String :=
  match r with
  | .ok p => p.map Prod.fst
  | .error _ => []

/-- A concrete two-chunk audio segment used as evaluation input. -/
def sampleAudio : AudioSegmentM :=
  { rmsChunks := fun _ => [3, 4], wavBase64 := "UklGRg==" }

/-! ## Conversation chain
Embedding of `conversation_chain` (src/open_llm_vtuber/conversation.py,
lines 92-214): effects modelled are the `store_message` calls, the
conversation-chain-end notification and the returned text. The conf/history
uids are threaded unchanged into every store and do not affect control flow,
so records are modelled as (role, content) pairs. -/

/-- The agent engine's declared output stream: `AgentOutputType.TEXT`
yields sentences, `AgentOutputType.AUDIO` yields (audio path, text)
pairs (conversation.py lines 151-186). -/
inductive AgentStream where
  | textMode (sentences : List String)
  | audioMode (pairs : List (String × String))

/-- The per-item texts accumulated into `full_response` by the output loop. -/
def streamTexts : AgentStream → List String
  | .textMode ss => ss
  | .audioMode ps => ps.map Prod.snd

/-- Observable outcome of one `conversation_chain` run. -/
structure ChainResult where
  returned : String
  stored : List (String × String)
  chainEndSent : Bool
  wasCancelled : Bool
  deriving DecidableEq, Repr

/-- Embedding of `conversation_chain` (conversation.py lines 92-214).
`cancelAfter = some k` means an `asyncio.CancelledError` is delivered after
`k` agent items have been consumed (accumulated into `full_response`); the
`except asyncio.CancelledError` on line 191 swallows it and the `finally`
block on lines 197-214 runs either way: it stores the accumulated response
under role "ai" whenever it is non-empty, sends the chain-end control
notification and returns `full_response`. A `None` user input returns early
(line 136-138), but the `finally` block still runs. -/
def conversation_chain (userInput : Option RawInput) (asr : List Int → String)
    (stream : AgentStream) (cancelAfter : Option Nat) : ChainResult :=
  match userInput with
  | none => { returned := "", stored := [], chainEndSent := true,
              wasCancelled := false }
  | some raw =>
      let inputText := match raw with
        | .text s => s
        | .audio a => asr a
      let consumed := match cancelAfter with
        | none => streamTexts stream
        | some k => (streamTexts stream).take k
      let fullResponse := String.join consumed
      { returned := fullResponse
      , stored := [("human", inputText)] ++
          (if fullResponse = "" then [] else [("ai", fullResponse)])
      , chainEndSent := true
      , wasCancelled := cancelAfter.isSome }

/-! ## Individual interrupt
Embedding of `handle_individual_interrupt`
(src/open_llm_vtuber/conversations/conversation_handler.py, lines 143-176).
Modelled from the spec: the persistence capability `storeMessage` appends
one record to the session history, modelled as a record log. -/

/-- One persisted chat-history record (role, content). -/
structure HistRecord where
  role : String
  content : String
  deriving DecidableEq, Repr

/-- Observable outcome of `handle_individual_interrupt`. -/
structure IndivInterruptResult where
  log : List HistRecord
  taskCancelled : Bool
  hookCalled : Bool
  deriving DecidableEq, Repr

/-- Embedding of `handle_individual_interrupt` (conversation_handler.py
lines 143-176). `tasks` is `current_conversation_tasks`: a present key may
hold `None` (modelled `none`) or a task whose value records `done()`.
If the key is present: the task is cancelled only when it exists and is
not done (line 152); the agent interrupt hook is invoked regardless
(line 157); and when `context.history_uid` is truthy, an "ai" record with
the heard text and a "system" interrupt-marker record are appended
(lines 161-175). If the key is absent nothing happens. -/
def handle_individual_interrupt (clientUid : String)
    (tasks : List (String × Option Bool))
    (historyUid : Option String) (heard : String)
    (log : List HistRecord) : IndivInterruptResult :=
  match tasks.lookup clientUid with
  | none => { log := log, taskCancelled := false, hookCalled := false }
  | some t =>
      let cancelled := match t with
        | some false => true
        | _ => false
      let newLog :=
        if historyUid.isSome then
          log ++ [⟨"ai", heard⟩, ⟨"system", "[Interrupted by user]"⟩]
        else log
      { log := newLog, taskCancelled := cancelled, hookCalled := true }

/-! ## Conversation trigger dispatch
Embedding of the task-creation logic of `handle_conversation_trigger`
(src/open_llm_vtuber/conversations/conversation_handler.py, lines 106-140).
The input preprocessing above those lines does not touch the task map. -/

/-- One spawned conversation task: its id, session key and whether it is
still running (`not done()`). -/
structure SessionTask where
  tid : Nat
  key : String
  running : Bool
  deriving DecidableEq, Repr

/-- The dispatcher state: every task ever created (a created task keeps
running until it terminates, whether or not the registry still points at
it), the `current_conversation_tasks` map and a fresh-id counter. -/
structure DispatchState where
  tasks : List SessionTask
  registry : List (String × Nat)
  nextTid : Nat
  deriving DecidableEq, Repr

/-- `asyncio.create_task` plus the dict assignment
`current_conversation_tasks[key] = task`: a new running task is created
and the registry entry for `key` is overwritten (shadowed). -/
def spawnTask (st : DispatchState) (key : String) : DispatchState :=
  { tasks := st.tasks ++ [⟨st.nextTid, key, true⟩]
  , registry := (key, st.nextTid) :: st.registry
  , nextTid := st.nextTid + 1 }

/-- `task.done()` for the task a registry entry points at. -/
def taskIsDone (st : DispatchState) (tid : Nat) : Bool :=
  match st.tasks.find? (fun t => t.tid = tid) with
  | some t => !t.running
  | none => true

/-- Embedding of the dispatch part of `handle_conversation_trigger`
(conversation_handler.py lines 106-140). `clientGroup` is
`chat_group_manager.get_client_group(client_uid)` (group id and member
list, an external collaborator). For a group of more than one member the
task is created under the group id only if no entry exists or the existing
task is done (lines 110-113); otherwise — including every individual
client — a task is created unconditionally (lines 128-140). -/
def handle_conversation_trigger (st : DispatchState) (clientUid : String)
    (clientGroup : Option (String × List String)) : DispatchState :=
  match clientGroup with
  | some (groupId, members) =>
      if 1 < members.length then
        match st.registry.lookup groupId with
        | none => spawnTask st groupId
        | some tid => if taskIsDone st tid then spawnTask st groupId else st
      else spawnTask st clientUid
  | none => spawnTask st clientUid

/-- Number of non-terminal tasks that exist for one session key. -/
def runningCount (st : DispatchState) (key : String) : Nat :=
  (st.tasks.filter (fun t => t.key = key ∧ t.running = true)).length

/-! ## Group interrupt
Embedding of `handle_group_interrupt`
(src/open_llm_vtuber/conversations/conversation_handler.py, lines 178-246).
`ChatGroupManager`, `GroupConversationState` and the client context map are
external collaborators, modelled as association lists. Per-member hook
exceptions (caught on line 237) are not modelled: hooks are total here. -/

/-- The per-client service context fields the group interrupt reads. -/
structure MemberContext where
  confUid : String
  historyUid : Option String
  characterName : String
  deriving DecidableEq, Repr

/-- Observable outcome of `handle_group_interrupt`. -/
structure GroupInterruptOutcome where
  tasks : List (String × Option Bool)
  states : List (String × Option String)
  memberLogs : List (String × HistRecord)
  hookCalls : List String
  taskCancelled : Bool
  broadcastTo : Option (List String)
  deriving DecidableEq, Repr

/-- The per-member store loop (conversation_handler.py lines 218-238): for
each group member that has a client context, invoke its interrupt hook and
append an "ai" record with the heard text plus a "system" marker record to
that member's history. Members without a context are skipped. -/
def group_interrupt_stores (clientContexts : List (String × MemberContext))
    (heard : String) : List String → List (String × HistRecord)
  | [] => []
  | m :: rest =>
      (if (clientContexts.lookup m).isSome then
        [(m, ⟨"ai", heard⟩), (m, ⟨"system", "[Interrupted by user]"⟩)]
      else []) ++ group_interrupt_stores clientContexts heard rest

/-- The members whose agent interrupt hook is invoked by that loop. -/
def group_interrupt_hooks (clientContexts : List (String × MemberContext)) :
    List String → List String
  | [] => []
  | m :: rest =>
      (if (clientContexts.lookup m).isSome then [m] else []) ++
        group_interrupt_hooks clientContexts rest

/-- Embedding of the context-resolution step of `handle_group_interrupt`
(conversation_handler.py lines 192-204): read the current speaker from the
group state, take that speaker's client context if any, otherwise fall
back to the context of the first group member. -/
def resolve_interrupt_context (groupId : String)
    (groups : List (String × List String))
    (states : List (String × Option String))
    (clientContexts : List (String × MemberContext)) : Option MemberContext :=
  let speaker : Option String :=
    match states.lookup groupId with
    | some st => st
    | none => none
  match speaker.bind (fun uid => clientContexts.lookup uid) with
  | some c => some c
  | none =>
      match groups.lookup groupId with
      | some members => members.head?.bind (fun m => clientContexts.lookup m)
      | none => none

/-- Embedding of `handle_group_interrupt` (conversation_handler.py lines
178-246). If no task exists under the group id or it is done, return with
no effect (lines 188-190). Otherwise: resolve a context (lines 192-204),
cancel the task, pop it from the task map and remove the group state
(lines 206-214), run the per-member store loop when a context was found
(the `if context and group` on line 217), and broadcast the interrupt
notification to the group member list (lines 240-246) — which raises
`AttributeError` when the group does not exist. -/
def handle_group_interrupt (groupId : String) (heard : String)
    (tasks : List (String × Option Bool))
    (groups : List (String × List String))
    (states : List (String × Option String))
    (clientContexts : List (String × MemberContext)) :
    Except String GroupInterruptOutcome :=
  match tasks.lookup groupId with
  | none => .ok ⟨tasks, states, [], [], false, none⟩
  | some t =>
      if t = some false then
        let ctx := resolve_interrupt_context groupId groups states
          clientContexts
        let tasksAfter := tasks.filter (fun kv => kv.1 != groupId)
        let statesAfter := states.filter (fun kv => kv.1 != groupId)
        match groups.lookup groupId with
        | none => .error "AttributeError: NoneType object has no members"
        | some members =>
            .ok ⟨tasksAfter, statesAfter,
              (if ctx.isSome then
                group_interrupt_stores clientContexts heard members
              else []),
              (if ctx.isSome then group_interrupt_hooks clientContexts members
              else []),
              true, some members⟩
      else .ok ⟨tasks, states, [], [], false, none⟩

/-- Extract the outcome of a non-crashing group interrupt (a default
outcome on the crash path). -/
def theOutcome (r : Except String GroupInterruptOutcome) : GroupInterruptOutcome :=
  match r with
  | .ok o => o
  | .error _ => ⟨[], [], [], [], false, none⟩

/-- A concrete member context used as evaluation input. -/
def ctxA : MemberContext := ⟨"conf", some "hA", "Alice"⟩

/-- A second concrete member context used as evaluation input. -/
def ctxB : MemberContext := ⟨"conf", some "hB", "Bob"⟩

/-! ## Ordered TTS task manager
Small-step semantics of `TTSTaskManager.speak`
(src/open_llm_vtuber/conversation.py, lines 22-89). Each call of `speak`
with non-empty text atomically assigns `current_task_index = len(task_list)`
and appends its synthesis task (lines 52-59); the coroutine then polls the
barrier (`while current_task_index != self.next_index_to_play`, lines
62-63), awaits its synthesis task (line 65), hands the payload to
`websocket_send` (line 74), and in `finally` increments the barrier and
clears the manager when its task is the last one submitted (lines 85-89).
Concurrent `speak` coroutines on one manager are modelled by a labelled
transition relation over all event-loop interleavings; a ghost serial
number records each job's global submission rank. -/

/-- Where one in-flight `speak` coroutine stands. -/
inductive SpeakPhase where
  | atBarrier
  | awaitSynth
  | inFinally
  deriving DecidableEq, Repr

/-- One in-flight `speak` coroutine: `gid` is its ghost submission serial,
`idx` is its `current_task_index`, `ok` tells whether its synthesis task
will succeed. -/
structure SpeakJob where
  gid : Nat
  idx : Nat
  ok : Bool
  phase : SpeakPhase
  deriving DecidableEq, Repr

/-- Manager state plus ghost observations: `emitted` lists, in order, the
submission serials of the payloads handed to the websocket sink. -/
structure TTSState where
  nextIndexToPlay : Nat
  taskCount : Nat
  jobs : List SpeakJob
  emitted : List Nat
  nextGid : Nat
  deriving DecidableEq, Repr

/-- A fresh manager (`__init__` / `clear`, conversation.py lines 23-29). -/
def TTSState.init : TTSState := ⟨0, 0, [], [], 0⟩

/-- Submission prologue of `speak` (conversation.py lines 39-59): empty or
whitespace-only text returns before any state is touched (lines 42-46;
Python's `not sentence or not sentence.strip()` holds exactly when every
character of the text is whitespace); otherwise the job takes index
`len(task_list)` and its task is appended. -/
def speak_submit (sentence : String) (ok : Bool) (s : TTSState) : TTSState :=
  if sentence.isEmpty || sentence.data.all Char.isWhitespace then s
  else
    { s with
      taskCount := s.taskCount + 1
      jobs := s.jobs ++ [⟨s.nextGid, s.taskCount, ok, .atBarrier⟩]
      nextGid := s.nextGid + 1 }

/-- Replace the phase of the job carrying serial `g`. -/
def setPhase (s : TTSState) (g : Nat) (p : SpeakPhase) : TTSState :=
  { s with
    jobs := s.jobs.map (fun j =>
      if j.gid = g then { j with phase := p } else j) }

/-- The `finally` block (conversation.py lines 85-89): the coroutine leaves,
`next_index_to_play` is incremented, and when its task was the last one in
`task_list` the manager is cleared (counters reset to zero). -/
def finishJob (s : TTSState) (j : SpeakJob) : TTSState :=
  let s1 : TTSState :=
    { s with
      jobs := s.jobs.filter (fun k => k.gid != j.gid)
      nextIndexToPlay := s.nextIndexToPlay + 1 }
  if j.idx = s.taskCount - 1 then
    { s1 with nextIndexToPlay := 0, taskCount := 0 }
  else s1

/-- Transition labels: `emit g i` is the handing of the payload of job
(serial `g`, index `i`) to the websocket sink. -/
inductive TTSLabel where
  | submit (sentence : String) (ok : Bool)
  | pass (g : Nat)
  | emit (g i : Nat)
  | skip (g : Nat)
  | finish (g : Nat)

/-- Interleaved small-step semantics of `speak` coroutines on one manager:
`submit` runs the prologue; `pass` exits the polling loop, which requires
`current_task_index == next_index_to_play` (line 62); `emit` hands the
payload to the sink after a successful synthesis await; `skip` is the
synthesis-failure (or payload-preparation-failure) path that emits
nothing; `finish` runs the `finally` block. -/
inductive TTSStep : TTSState → TTSLabel → TTSState → Prop where
  | submit (s : TTSState) (sentence : String) (ok : Bool) :
      TTSStep s (.submit sentence ok) (speak_submit sentence ok s)
  | pass (s : TTSState) (j : SpeakJob) (hj : j ∈ s.jobs)
      (hp : j.phase = .atBarrier) (hg : j.idx = s.nextIndexToPlay) :
      TTSStep s (.pass j.gid) (setPhase s j.gid .awaitSynth)
  | emit (s : TTSState) (j : SpeakJob) (hj : j ∈ s.jobs)
      (hp : j.phase = .awaitSynth) (hok : j.ok = true) :
      TTSStep s (.emit j.gid j.idx)
        { setPhase s j.gid .inFinally with emitted := s.emitted ++ [j.gid] }
  | skip (s : TTSState) (j : SpeakJob) (hj : j ∈ s.jobs)
      (hp : j.phase = .awaitSynth) :
      TTSStep s (.skip j.gid) (setPhase s j.gid .inFinally)
  | finish (s : TTSState) (j : SpeakJob) (hj : j ∈ s.jobs)
      (hp : j.phase = .inFinally) :
      TTSStep s (.finish j.gid) (finishJob s j)

/-- States reachable from a fresh manager. -/
inductive TTSReach : TTSState → Prop where
  | init : TTSReach TTSState.init
  | step {s : TTSState} {l : TTSLabel} {s2 : TTSState} :
      TTSReach s → TTSStep s l s2 → TTSReach s2

/-- Executions: reflexive-transitive closure of the step relation. -/
def TTSExec : TTSState → TTSState → Prop :=
  Relation.ReflTransGen (fun a b => ∃ l, TTSStep a l b)

/-- Steps a `speak` coroutine still takes before leaving. -/
def phaseWeight : SpeakPhase → Nat
  | .atBarrier => 3
  | .awaitSynth => 2
  | .inFinally => 1

/-- Total remaining work of a manager state. -/
def ttsMeasure (s : TTSState) : Nat :=
  (s.jobs.map (fun j => phaseWeight j.phase)).sum

/-- One step of the completion scheduler: advance the coroutine whose index
holds the barrier, emitting when its synthesis succeeds. -/
def driveStep (s : TTSState) : TTSState :=
  match s.jobs.find? (fun j => j.idx == s.nextIndexToPlay) with
  | none => s
  | some j =>
      match j.phase with
      | .atBarrier => setPhase s j.gid .awaitSynth
      | .awaitSynth =>
          if j.ok then
            { setPhase s j.gid .inFinally with
              emitted := s.emitted ++ [j.gid] }
          else setPhase s j.gid .inFinally
      | .inFinally => finishJob s j

/-- Run the completion scheduler on a fuel budget. -/
def drainAux : Nat → TTSState → TTSState
  | 0, s => s
  | n + 1, s => if s.jobs.isEmpty then s else drainAux n (driveStep s)

/-- Run the completion scheduler to completion. -/
def drain (s : TTSState) : TTSState := drainAux (ttsMeasure s) s

/-- The inductive invariant of the manager semantics. -/
structure TTSInv (s : TTSState) : Prop where
  nip_le : s.nextIndexToPlay ≤ s.taskCount
  idx_lt : ∀ j ∈ s.jobs, j.idx < s.taskCount
  gid_lt : ∀ j ∈ s.jobs, j.gid < s.nextGid
  pairIdx : s.jobs.Pairwise (fun a b => a.idx ≠ b.idx)
  pairGid : s.jobs.Pairwise (fun a b => a.gid ≠ b.gid)
  idx_ge : ∀ j ∈ s.jobs, s.nextIndexToPlay ≤ j.idx
  passed_eq : ∀ j ∈ s.jobs, j.phase ≠ .atBarrier → j.idx = s.nextIndexToPlay
  mono : ∀ j ∈ s.jobs, ∀ k ∈ s.jobs, j.idx < k.idx → j.gid < k.gid
  emitted_lt : ∀ g ∈ s.emitted, g < s.nextGid
  emitted_sorted : s.emitted.Chain' (· < ·)
  emitted_before : ∀ g ∈ s.emitted, ∀ j ∈ s.jobs,
    j.phase ≠ .inFinally → g < j.gid
  range_full : ∀ i, s.nextIndexToPlay ≤ i → i < s.taskCount →
    ∃ j ∈ s.jobs, j.idx = i

/-- A job serial that must end up emitted: it belongs to a coroutine that
will succeed and has not yet passed its emission point, or it is already
in the emission log. -/
def willEmit (g : Nat) (s : TTSState) : Prop :=
  (∃ j ∈ s.jobs, j.gid = g ∧ j.ok = true ∧ j.phase ≠ .inFinally) ∨
    g ∈ s.emitted

/-! ## Theorems -/

/-- Every element of a chunk list is bounded by its `foldr Nat.max 0`. -/
theorem le_foldr_max (l : List Nat) (v : Nat) (hv : v ∈ l) :
    v ≤ l.foldr Nat.max 0 := by
  induction l with
  | nil => cases hv
  | cons a t ih =>
      rcases List.mem_cons.mp hv with h | h
      · subst h; exact Nat.le_max_left _ _
      · exact le_trans (ih h) (Nat.le_max_right _ _)

/-- Successful `get_volume_by_chunks` results are normalized into [0,1]. -/
theorem get_volume_by_chunks_bounds (chunks : List Nat) (vols : List ℚ)
    (h : get_volume_by_chunks chunks = .ok vols) :
    ∀ q ∈ vols, 0 ≤ q ∧ q ≤ 1 := by
  match chunks with
  | [] => simp [get_volume_by_chunks] at h
  | v :: vs =>
      unfold get_volume_by_chunks at h
      by_cases hm : (v :: vs).foldr Nat.max 0 = 0
      · simp [hm] at h
      · simp only [hm, if_false] at h
        injection h with h
        subst h
        intro q hq
        rcases List.mem_map.mp hq with ⟨w, hw, rfl⟩
        have hwle : w ≤ (v :: vs).foldr Nat.max 0 := le_foldr_max _ _ hw
        have hmpos : (0 : ℚ) < (((v :: vs).foldr Nat.max 0 : Nat) : ℚ) := by
          exact_mod_cast Nat.pos_of_ne_zero hm
        constructor
        · positivity
        · rw [div_le_one hmpos]
          exact_mod_cast hwle

/-- Erasing a key from an association list removes its binding. -/
theorem lookup_eraseKey_self {α : Type} (l : List (String × α)) (k : String) :
    (l.filter (fun kv => kv.1 != k)).lookup k = none := by
  induction l with
  | nil => rfl
  | cons a t ih =>
      obtain ⟨k1, v1⟩ := a
      by_cases h : k1 = k
      · simp [List.filter_cons, h, ih]
      · have hb : (k == k1) = false :=
          beq_eq_false_iff_ne.mpr (fun hx => h hx.symm)
        simp [List.filter_cons, bne_iff_ne, h, List.lookup, hb, ih]

/-- Erasing a key from an association list leaves other keys bound as
before. -/
theorem lookup_eraseKey_other {α : Type} (l : List (String × α))
    (k k' : String) (h : k' ≠ k) :
    (l.filter (fun kv => kv.1 != k)).lookup k' = l.lookup k' := by
  induction l with
  | nil => rfl
  | cons a t ih =>
      obtain ⟨k1, v1⟩ := a
      by_cases h1 : k1 = k
      · have hb : (k' == k1) = false :=
          beq_eq_false_iff_ne.mpr (fun hx => h (hx.trans h1))
        simp [List.filter_cons, h1, List.lookup, hb, ih,
          beq_eq_false_iff_ne.mpr h]
      · by_cases h2 : k' = k1
        · have hb : (k' == k1) = true := beq_iff_eq.mpr h2
          simp [List.filter_cons, bne_iff_ne, h1, List.lookup, hb]
        · have hb : (k' == k1) = false := beq_eq_false_iff_ne.mpr h2
          simp [List.filter_cons, bne_iff_ne, h1, List.lookup, hb, ih]

/-- The per-member store loop records exactly one (ai, heard) record plus
one marker record for each member that has a client context, in member
order, and records nothing for unregistered members. -/
theorem group_interrupt_stores_flatMap
    (clientContexts : List (String × MemberContext)) (heard : String)
    (members : List String) :
    group_interrupt_stores clientContexts heard members =
      members.flatMap (fun m =>
        if (clientContexts.lookup m).isSome then
          [(m, ⟨"ai", heard⟩), (m, ⟨"system", "[Interrupted by user]"⟩)]
        else []) := by
  induction members with
  | nil => rfl
  | cons m rest ih =>
      rw [group_interrupt_stores, List.flatMap_cons, ih]

/-- The per-member loop invokes the interrupt hook for exactly the members
that have a client context, in member order. -/
theorem group_interrupt_hooks_filter
    (clientContexts : List (String × MemberContext))
    (members : List String) :
    group_interrupt_hooks clientContexts members =
      members.filter (fun m => (clientContexts.lookup m).isSome) := by
  induction members with
  | nil => rfl
  | cons m rest ih =>
      rw [group_interrupt_hooks, List.filter_cons, ih]
      by_cases hm : (clientContexts.lookup m).isSome = true
      · simp [hm]
      · simp [hm]

/-- **C2 (counterexample)**: with one non-terminal task registered for
individual client c1, a new text-input trigger for c1 creates a second
task unconditionally: two non-terminal turn tasks now exist for the same
session key, refuting the at-most-one invariant. -/
theorem individual_trigger_double_task :
    runningCount ⟨[⟨0, "c1", true⟩], [("c1", 0)], 1⟩ "c1" = 1 ∧
    taskIsDone ⟨[⟨0, "c1", true⟩], [("c1", 0)], 1⟩ 0 = false ∧
    runningCount
      (handle_conversation_trigger ⟨[⟨0, "c1", true⟩], [("c1", 0)], 1⟩ "c1"
        none) "c1" = 2 := by
  decide

/-- **C2 (amended)**: only group session keys are guarded: a trigger for a
group whose registered task is non-terminal leaves the dispatcher state
unchanged, while a trigger for an individual client always creates a new
task, even while a previous task under that key is still running. -/
theorem conversation_trigger_guard_amended :
    (∀ (st : DispatchState) (gid : String) (members : List String)
        (clientUid : String) (tid : Nat),
      1 < members.length →
      st.registry.lookup gid = some tid →
      taskIsDone st tid = false →
      handle_conversation_trigger st clientUid (some (gid, members)) = st) ∧
    (∀ (st : DispatchState) (clientUid : String),
      handle_conversation_trigger st clientUid none = spawnTask st clientUid) := by
  constructor
  · intro st gid members clientUid tid hlen hreg hdone
    simp [handle_conversation_trigger, hlen, hreg, hdone]
  · intro st clientUid
    rfl

/-- Closed witness applying the C2 amended theorem at concrete states. -/
theorem conversation_trigger_guard_amended_witness :
    handle_conversation_trigger ⟨[⟨0, "g", true⟩], [("g", 0)], 1⟩ "c1"
      (some ("g", ["c1", "c2"])) = ⟨[⟨0, "g", true⟩], [("g", 0)], 1⟩ ∧
    handle_conversation_trigger ⟨[], [], 0⟩ "c9" none =
      spawnTask ⟨[], [], 0⟩ "c9" :=
  ⟨conversation_trigger_guard_amended.1 _ "g" ["c1", "c2"] "c1" 0 (by decide)
      (by decide) (by decide),
   conversation_trigger_guard_amended.2 _ "c9"⟩

/-- **C4 (counterexample)**: a turn cancelled after accumulating "Hello"
returns the partial text but ALSO persists it under role "ai" through the
normal finally-block completion path, refuting the no-persistence half of
the claim. -/
theorem chain_cancel_persists_counterexample :
    (conversation_chain (some (.text "hi")) (fun _ => "")
      (.textMode ["Hello"]) (some 1)).wasCancelled = true ∧
    (conversation_chain (some (.text "hi")) (fun _ => "")
      (.textMode ["Hello"]) (some 1)).returned = "Hello" ∧
    ("ai", "Hello") ∈ (conversation_chain (some (.text "hi")) (fun _ => "")
      (.textMode ["Hello"]) (some 1)).stored := by
  refine ⟨rfl, by decide, by decide⟩

/-- **C4 (amended)**: a cancelled `conversation_chain` turn returns exactly
the partial text accumulated up to the cancellation point, but it persists
that partial response under role "ai" through the same finally-block store
as normal completion whenever it is non-empty; only an empty partial
response is left unpersisted. -/
theorem chain_cancel_amended (raw : RawInput) (asr : List Int → String)
    (stream : AgentStream) (k : Nat) :
    (conversation_chain (some raw) asr stream (some k)).wasCancelled = true ∧
    (conversation_chain (some raw) asr stream (some k)).returned =
      String.join ((streamTexts stream).take k) ∧
    ((conversation_chain (some raw) asr stream (some k)).returned ≠ "" →
      ("ai", (conversation_chain (some raw) asr stream (some k)).returned) ∈
        (conversation_chain (some raw) asr stream (some k)).stored) ∧
    ((conversation_chain (some raw) asr stream (some k)).returned = "" →
      ∀ c, ("ai", c) ∉
        (conversation_chain (some raw) asr stream (some k)).stored) := by
  refine ⟨by cases raw <;> rfl, by cases raw <;> rfl, ?_, ?_⟩
  · intro hne
    cases raw <;>
      simp only [conversation_chain] at hne ⊢ <;>
      simp [hne]
  · intro hemp c
    cases raw <;>
      simp only [conversation_chain] at hemp ⊢ <;>
      simp [hemp]

/-- Closed witness applying the C4 amended theorem at a concrete cancelled
turn. -/
theorem chain_cancel_amended_witness :
    (conversation_chain (some (.text "hi")) (fun _ => "")
      (.textMode ["A", "B"]) (some 1)).wasCancelled = true ∧
    (conversation_chain (some (.text "hi")) (fun _ => "")
      (.textMode ["A", "B"]) (some 1)).returned =
      String.join (["A", "B"].take 1) ∧
    ("ai", (conversation_chain (some (.text "hi")) (fun _ => "")
      (.textMode ["A", "B"]) (some 1)).returned) ∈
      (conversation_chain (some (.text "hi")) (fun _ => "")
      (.textMode ["A", "B"]) (some 1)).stored := by
  have h := chain_cancel_amended (.text "hi") (fun _ => "")
    (.textMode ["A", "B"]) 1
  exact ⟨h.1, h.2.1, h.2.2.1 (by decide)⟩

/-- **C5 (counterexample)**: an individual interrupt of a running turn in a
session with no active history persists nothing at all: no AI record equal
to the heard text and no marker record exist afterwards. -/
theorem individual_interrupt_no_history_counterexample :
    (handle_individual_interrupt "c1" [("c1", some false)] none
      "partial text" []).taskCancelled = true ∧
    (handle_individual_interrupt "c1" [("c1", some false)] none
      "partial text" []).log = [] := by
  decide

/-- **C5 (amended)**: whenever the session key holds a task entry and a
history is active, the individual interrupt appends (not amends) exactly
one "ai" record whose content equals the heard text, immediately followed
by exactly one "system" interrupt-marker record. -/
theorem individual_interrupt_persistence_amended (clientUid : String)
    (tasks : List (String × Option Bool)) (t : Option Bool)
    (historyUid : Option String) (heard : String) (log : List HistRecord)
    (ht : tasks.lookup clientUid = some t) (hh : historyUid.isSome = true) :
    (handle_individual_interrupt clientUid tasks historyUid heard log).log =
      log ++ [⟨"ai", heard⟩, ⟨"system", "[Interrupted by user]"⟩] := by
  simp [handle_individual_interrupt, ht, hh]

/-- Closed witness applying the C5 amended theorem at a concrete state. -/
theorem individual_interrupt_persistence_amended_witness :
    (handle_individual_interrupt "c1" [("c1", some false)] (some "h")
      "partial text" []).log =
      [] ++ [⟨"ai", "partial text"⟩, ⟨"system", "[Interrupted by user]"⟩] :=
  individual_interrupt_persistence_amended "c1" [("c1", some false)]
    (some false) (some "h") "partial text" [] (by decide) rfl

/-- **C6 (counterexample)**: an interrupt for a key whose task is already
terminal is NOT a no-op: the task is (correctly) not cancelled, but the
interrupt hook is still invoked and two records are still persisted. -/
theorem individual_interrupt_noop_counterexample :
    (handle_individual_interrupt "c1" [("c1", some true)] (some "h1") "t"
      []).taskCancelled = false ∧
    (handle_individual_interrupt "c1" [("c1", some true)] (some "h1") "t"
      []).hookCalled = true ∧
    (handle_individual_interrupt "c1" [("c1", some true)] (some "h1") "t"
      []).log =
      [⟨"ai", "t"⟩, ⟨"system", "[Interrupted by user]"⟩] := by
  decide

/-- **C6 (amended)**: the interrupt is a complete no-op only when the
session key is absent from the task map; when the key is present but its
task is terminal (or the slot holds None), the task is not cancelled but
the interrupt hook is still invoked (and records are still persisted when
a history is active). -/
theorem individual_interrupt_noop_amended (clientUid : String)
    (tasks : List (String × Option Bool)) (historyUid : Option String)
    (heard : String) (log : List HistRecord) :
    (tasks.lookup clientUid = none →
      handle_individual_interrupt clientUid tasks historyUid heard log =
        ⟨log, false, false⟩) ∧
    (∀ t, tasks.lookup clientUid = some t → t ≠ some false →
      (handle_individual_interrupt clientUid tasks historyUid heard
        log).taskCancelled = false ∧
      (handle_individual_interrupt clientUid tasks historyUid heard
        log).hookCalled = true) := by
  constructor
  · intro habs
    simp [handle_individual_interrupt, habs]
  · intro t ht hnr
    match t with
    | none => simp [handle_individual_interrupt, ht]
    | some true => simp [handle_individual_interrupt, ht]
    | some false => exact absurd rfl hnr

/-- Closed witness applying the C6 amended theorem at concrete states. -/
theorem individual_interrupt_noop_amended_witness :
    handle_individual_interrupt "zz" [("c1", some true)] (some "h1") "t" [] =
      ⟨[], false, false⟩ ∧
    (handle_individual_interrupt "c1" [("c1", some true)] (some "h1") "t"
      []).taskCancelled = false := by
  constructor
  · exact (individual_interrupt_noop_amended "zz" [("c1", some true)]
      (some "h1") "t" []).1 (by decide)
  · exact ((individual_interrupt_noop_amended "c1" [("c1", some true)]
      (some "h1") "t" []).2 (some true) (by decide) (by decide)).1

/-- **C7 (counterexample)**: two concrete group interrupts refute the
for-every-member claim. With members a and b, speaker a, and only a
registered, the partial-AI-plus-marker pair is recorded for a only —
member b gets nothing. With no recorded speaker and the first member a
unregistered, the resolved context is None and the whole store loop is
skipped, so even the registered member b gets no records and no hook
call, although the task is still cancelled. -/
theorem group_interrupt_missing_member_counterexample :
    (theOutcome (handle_group_interrupt "g" "t" [("g", some false)]
      [("g", ["a", "b"])] [("g", some "a")] [("a", ctxA)])).memberLogs =
      [("a", ⟨"ai", "t"⟩), ("a", ⟨"system", "[Interrupted by user]"⟩)] ∧
    (∀ r ∈ (theOutcome (handle_group_interrupt "g" "t" [("g", some false)]
      [("g", ["a", "b"])] [("g", some "a")] [("a", ctxA)])).memberLogs,
      r.1 ≠ "b") ∧
    (theOutcome (handle_group_interrupt "g" "t" [("g", some false)]
      [("g", ["a", "b"])] [("g", some "a")] [("a", ctxA)])).broadcastTo =
      some ["a", "b"] ∧
    (theOutcome (handle_group_interrupt "g" "t" [("g", some false)]
      [("g", ["a", "b"])] [("g", none)] [("b", ctxB)])).memberLogs = [] ∧
    (theOutcome (handle_group_interrupt "g" "t" [("g", some false)]
      [("g", ["a", "b"])] [("g", none)] [("b", ctxB)])).hookCalls = [] ∧
    (theOutcome (handle_group_interrupt "g" "t" [("g", some false)]
      [("g", ["a", "b"])] [("g", none)] [("b", ctxB)])).taskCancelled =
      true := by
  refine ⟨by decide, by decide, by decide, by decide, by decide, by decide⟩

/-- **C7 (amended)**: interrupting a group with a running task cancels and
removes the task, removes the group state, and broadcasts one interrupt
notification to exactly the group's member set, leaving tasks and states
of every other session key untouched. Persistence is gated by the
speaker-context resolution of lines 192-204: when it yields a context,
the loop records exactly one partial-AI-plus-marker pair for each member
that has a registered client context (unregistered members are skipped)
and invokes exactly those members' interrupt hooks; when it yields none
(no usable speaker and the first member unregistered), nothing is
persisted and no hook is invoked for any member, even a registered one. -/
theorem group_interrupt_amended (groupId heard : String)
    (tasks : List (String × Option Bool))
    (groups : List (String × List String))
    (states : List (String × Option String))
    (clientContexts : List (String × MemberContext))
    (members : List String)
    (htask : tasks.lookup groupId = some (some false))
    (hgroup : groups.lookup groupId = some members) :
    ∃ out, handle_group_interrupt groupId heard tasks groups states
        clientContexts = .ok out ∧
      out.taskCancelled = true ∧
      out.broadcastTo = some members ∧
      out.tasks.lookup groupId = none ∧
      out.states.lookup groupId = none ∧
      (∀ k, k ≠ groupId → out.tasks.lookup k = tasks.lookup k) ∧
      (∀ k, k ≠ groupId → out.states.lookup k = states.lookup k) ∧
      ((resolve_interrupt_context groupId groups states
          clientContexts).isSome = true →
        out.memberLogs = members.flatMap (fun m =>
          if (clientContexts.lookup m).isSome then
            [(m, ⟨"ai", heard⟩), (m, ⟨"system", "[Interrupted by user]"⟩)]
          else []) ∧
        out.hookCalls = members.filter
          (fun m => (clientContexts.lookup m).isSome)) ∧
      ((resolve_interrupt_context groupId groups states
          clientContexts).isSome = false →
        out.memberLogs = [] ∧ out.hookCalls = []) := by
  refine ⟨⟨tasks.filter (fun kv => kv.1 != groupId),
      states.filter (fun kv => kv.1 != groupId),
      (if (resolve_interrupt_context groupId groups states
          clientContexts).isSome then
        group_interrupt_stores clientContexts heard members
      else []),
      (if (resolve_interrupt_context groupId groups states
          clientContexts).isSome then
        group_interrupt_hooks clientContexts members
      else []),
      true, some members⟩, ?_, rfl, rfl, ?_, ?_, ?_, ?_, ?_, ?_⟩
  · unfold handle_group_interrupt
    rw [htask]
    simp only [reduceIte, hgroup]
  · exact lookup_eraseKey_self tasks groupId
  · exact lookup_eraseKey_self states groupId
  · intro k hk
    exact lookup_eraseKey_other tasks groupId k hk
  · intro k hk
    exact lookup_eraseKey_other states groupId k hk
  · intro hres
    simp only [if_pos hres]
    exact ⟨group_interrupt_stores_flatMap clientContexts heard members,
      group_interrupt_hooks_filter clientContexts members⟩
  · intro hres
    simp [hres]

/-- Closed witness applying the C7 amended theorem twice: at a group whose
speaker resolution succeeds with every member registered (both members'
pairs recorded, other keys untouched) and at a group whose resolution
fails (nothing persisted, task still cancelled). -/
theorem group_interrupt_amended_witness :
    (theOutcome (handle_group_interrupt "g" "t"
      [("g", some false), ("h", some false)] [("g", ["a", "b"])]
      [("g", some "a")] [("a", ctxA), ("b", ctxB)])).memberLogs =
      [("a", ⟨"ai", "t"⟩), ("a", ⟨"system", "[Interrupted by user]"⟩),
       ("b", ⟨"ai", "t"⟩), ("b", ⟨"system", "[Interrupted by user]"⟩)] ∧
    (theOutcome (handle_group_interrupt "g" "t"
      [("g", some false), ("h", some false)] [("g", ["a", "b"])]
      [("g", some "a")] [("a", ctxA), ("b", ctxB)])).broadcastTo =
      some ["a", "b"] ∧
    (theOutcome (handle_group_interrupt "g" "t"
      [("g", some false), ("h", some false)] [("g", ["a", "b"])]
      [("g", some "a")] [("a", ctxA), ("b", ctxB)])).tasks.lookup "h" =
      some (some false) ∧
    (theOutcome (handle_group_interrupt "g2" "t" [("g2", some false)]
      [("g2", ["a", "b"])] [("g2", none)] [("b", ctxB)])).memberLogs =
      [] ∧
    (theOutcome (handle_group_interrupt "g2" "t" [("g2", some false)]
      [("g2", ["a", "b"])] [("g2", none)] [("b", ctxB)])).taskCancelled =
      true := by
  obtain ⟨out, hout, -, hb, -, -, hfr, -, hA, -⟩ :=
    group_interrupt_amended "g" "t" [("g", some false), ("h", some false)]
      [("g", ["a", "b"])] [("g", some "a")] [("a", ctxA), ("b", ctxB)]
      ["a", "b"] (by decide) (by decide)
  obtain ⟨out2, hout2, hcan2, -, -, -, -, -, -, hB2⟩ :=
    group_interrupt_amended "g2" "t" [("g2", some false)]
      [("g2", ["a", "b"])] [("g2", none)] [("b", ctxB)]
      ["a", "b"] (by decide) (by decide)
  refine ⟨?_, ?_, ?_, ?_, ?_⟩
  · rw [hout, theOutcome, (hA (by decide)).1]
    decide
  · rw [hout, theOutcome, hb]
  · rw [hout, theOutcome, hfr "h" (by decide)]
    decide
  · rw [hout2, theOutcome, (hB2 (by decide)).1]
  · rw [hout2, theOutcome, hcan2]

/-- **C8 (counterexample)**: on a concrete audio segment the emitted audio
payload carries its chunk length under the key `slice_length`; no key
`slice_length_ms` exists, so the claimed field name is wrong. -/
theorem audio_payload_key_counterexample :
    payloadKeys (prepare_audio_payload "a.mp3" sampleAudio 20 none none) =
      ["type", "audio", "volumes", "slice_length", "text", "expressions"] ∧
    "slice_length_ms" ∉
      payloadKeys (prepare_audio_payload "a.mp3" sampleAudio 20 none none) := by
  refine ⟨rfl, ?_⟩
  decide

/-- **C8 (amended)**: every successfully prepared audio payload has exactly
the keys type, audio, volumes, slice_length (not slice_length_ms), text,
expressions, and each entry of volumes is normalized into [0,1]. -/
theorem audio_payload_shape_amended (audioPath : String) (audio : AudioSegmentM)
    (chunkLengthMs : Nat) (displayText : Option String)
    (expressionList : Option (List Nat)) (p : List (String × JValue))
    (h : prepare_audio_payload audioPath audio chunkLengthMs displayText
          expressionList = .ok p) :
    p.map Prod.fst =
      ["type", "audio", "volumes", "slice_length", "text", "expressions"] ∧
    ∃ vols : List ℚ, ("volumes", JValue.jarr vols) ∈ p ∧
      ∀ q ∈ vols, 0 ≤ q ∧ q ≤ 1 := by
  unfold prepare_audio_payload at h
  by_cases hp : audioPath.isEmpty
  · simp [hp] at h
  · simp only [hp, Bool.false_eq_true, if_false] at h
    cases hgv : get_volume_by_chunks (audio.rmsChunks chunkLengthMs) with
    | error e => rw [hgv] at h; cases h
    | ok vols =>
        rw [hgv] at h
        injection h with h
        subst h
        refine ⟨by simp, vols, by simp, get_volume_by_chunks_bounds _ _ hgv⟩

/-- Closed witness applying the C8 amended theorem at a concrete payload. -/
theorem audio_payload_shape_amended_witness :
    ([("type", JValue.jstr "audio"),
      ("audio", JValue.jstr "UklGRg=="),
      ("volumes", JValue.jarr [3 / 4, 1]),
      ("slice_length", JValue.jnum 20),
      ("text", JValue.jnull),
      ("expressions", JValue.jnull)].map Prod.fst =
      ["type", "audio", "volumes", "slice_length", "text", "expressions"]) ∧
    ∃ vols : List ℚ,
      ("volumes", JValue.jarr vols) ∈
        [("type", JValue.jstr "audio"),
         ("audio", JValue.jstr "UklGRg=="),
         ("volumes", JValue.jarr [3 / 4, 1]),
         ("slice_length", JValue.jnum 20),
         ("text", JValue.jnull),
         ("expressions", JValue.jnull)] ∧
      ∀ q ∈ vols, 0 ≤ q ∧ q ≤ 1 :=
  audio_payload_shape_amended "a.mp3" sampleAudio 20 none none _ (by
    have h1 : ("a.mp3".isEmpty) = false := rfl
    simp [prepare_audio_payload, get_volume_by_chunks, sampleAudio, h1])

/-- **C10**: the user-input preprocessing hook is a pure deterministic
function of (raw, user_ctx): for every text input its output is exactly
the fixed formula below, whose injected persona hint is always element 1
of the three-element `PERSONA_HINTS` list (never a random choice), and
every raw-audio ndarray input maps to the empty string. -/
theorem preprocess_user_text_deterministic_fixed :
    PERSONA_HINTS.length = 3 ∧
    PERSONA_HINTS.getD 1 "" = "ユーザーはゴリゴリの津軽弁です。" ∧
    (∀ ctx : UserCtx, ∀ samples : List Int,
      preprocess_user_text (.audio samples) ctx = "") ∧
    (∀ s : String, ∀ ctx : UserCtx,
      preprocess_user_text (.text s) ctx =
        "あなたはユーザーの背景に配慮して自然にコーチングします。" ++
        "\n【追加情報】" ++ PERSONA_HINTS.getD 1 "" ++ "\n" ++
        (if (((ctx.getD []).lookup "today_summary").getD "") = "" then ""
         else "【最新】" ++ (((ctx.getD []).lookup "today_summary").getD "") ++
              "\n") ++
        "【入力】" ++ s) :=
  ⟨rfl, rfl, fun _ _ => rfl, fun _ _ => rfl⟩

/-- A pairwise-distinct projection is injective on list members. -/
theorem pairwise_proj_inj {f : SpeakJob → Nat} {l : List SpeakJob}
    (hp : l.Pairwise (fun a b => f a ≠ f b)) {j k : SpeakJob}
    (hj : j ∈ l) (hk : k ∈ l) (h : f j = f k) : j = k := by
  by_contra hne
  have hsym : Symmetric (fun a b : SpeakJob => f a ≠ f b) :=
    fun a b hab hba => hab hba.symm
  exact hp.forall hsym hj hk hne h

/-- `setPhase` at a member's serial rewrites exactly that member. -/
theorem setPhase_jobs_eq (s : TTSState) (j : SpeakJob) (p : SpeakPhase)
    (hpair : s.jobs.Pairwise fun a b => a.gid ≠ b.gid) (hj : j ∈ s.jobs) :
    ∃ l1 l2, s.jobs = l1 ++ j :: l2 ∧
      (setPhase s j.gid p).jobs = l1 ++ { j with phase := p } :: l2 ∧
      (∀ a ∈ l1, a.gid ≠ j.gid) ∧ (∀ b ∈ l2, b.gid ≠ j.gid) := by
  obtain ⟨l1, l2, he⟩ := List.append_of_mem hj
  rw [he] at hpair
  obtain ⟨hp1, hp2, hp12⟩ := List.pairwise_append.mp hpair
  have h1 : ∀ a ∈ l1, a.gid ≠ j.gid := fun a ha =>
    hp12 a ha j (List.mem_cons_self j l2)
  have h2 : ∀ b ∈ l2, b.gid ≠ j.gid := fun b hb =>
    fun hbg => (List.pairwise_cons.mp hp2).1 b hb hbg.symm
  refine ⟨l1, l2, he, ?_, h1, h2⟩
  simp only [setPhase, he, List.map_append, List.map_cons, if_pos rfl]
  rw [List.map_congr_left (fun a ha => if_neg (h1 a ha)),
    List.map_congr_left (fun b hb => if_neg (h2 b hb))]
  simp

/-- `finishJob` removes exactly the finishing member. -/
theorem finishJob_jobs_eq (s : TTSState) (j : SpeakJob)
    (hpair : s.jobs.Pairwise fun a b => a.gid ≠ b.gid) (hj : j ∈ s.jobs) :
    ∃ l1 l2, s.jobs = l1 ++ j :: l2 ∧
      (finishJob s j).jobs = l1 ++ l2 ∧
      (∀ a ∈ l1, a.gid ≠ j.gid) ∧ (∀ b ∈ l2, b.gid ≠ j.gid) := by
  obtain ⟨l1, l2, he⟩ := List.append_of_mem hj
  rw [he] at hpair
  obtain ⟨hp1, hp2, hp12⟩ := List.pairwise_append.mp hpair
  have h1 : ∀ a ∈ l1, a.gid ≠ j.gid := fun a ha =>
    hp12 a ha j (List.mem_cons_self j l2)
  have h2 : ∀ b ∈ l2, b.gid ≠ j.gid := fun b hb =>
    fun hbg => (List.pairwise_cons.mp hp2).1 b hb hbg.symm
  have hjobs : (finishJob s j).jobs =
      (s.jobs.filter (fun k => k.gid != j.gid)) := by
    unfold finishJob
    by_cases hc : j.idx = s.taskCount - 1 <;> simp [hc]
  refine ⟨l1, l2, he, ?_, h1, h2⟩
  rw [hjobs, he, List.filter_append, List.filter_cons]
  have hself : (j.gid != j.gid) = false := by simp
  rw [hself]
  simp only [Bool.false_eq_true, if_false]
  rw [List.filter_eq_self.mpr (fun a ha => by simpa using h1 a ha),
    List.filter_eq_self.mpr (fun b hb => by simpa using h2 b hb)]

/-- `finishJob` counters: barrier incremented, or a full clear when the
finishing job holds the last submitted index. -/
theorem finishJob_counters (s : TTSState) (j : SpeakJob) :
    ((j.idx = s.taskCount - 1 ∧ (finishJob s j).nextIndexToPlay = 0 ∧
      (finishJob s j).taskCount = 0) ∨
     (j.idx ≠ s.taskCount - 1 ∧
      (finishJob s j).nextIndexToPlay = s.nextIndexToPlay + 1 ∧
      (finishJob s j).taskCount = s.taskCount)) ∧
    (finishJob s j).emitted = s.emitted ∧
    (finishJob s j).nextGid = s.nextGid := by
  unfold finishJob
  by_cases hc : j.idx = s.taskCount - 1 <;> simp [hc]

@[simp]
theorem setPhase_nip (s : TTSState) (g : Nat) (p : SpeakPhase) :
    (setPhase s g p).nextIndexToPlay = s.nextIndexToPlay := rfl

@[simp]
theorem setPhase_taskCount (s : TTSState) (g : Nat) (p : SpeakPhase) :
    (setPhase s g p).taskCount = s.taskCount := rfl

@[simp]
theorem setPhase_emitted (s : TTSState) (g : Nat) (p : SpeakPhase) :
    (setPhase s g p).emitted = s.emitted := rfl

@[simp]
theorem setPhase_nextGid (s : TTSState) (g : Nat) (p : SpeakPhase) :
    (setPhase s g p).nextGid = s.nextGid := rfl

/-- Invariant preservation for a phase change of the barrier-holding job. -/
theorem ttsInv_setPhase (s : TTSState) (j : SpeakJob) (p : SpeakPhase)
    (hInv : TTSInv s) (hj : j ∈ s.jobs)
    (hidx : j.idx = s.nextIndexToPlay) (hold : j.phase ≠ .inFinally) :
    TTSInv (setPhase s j.gid p) := by
  obtain ⟨l1, l2, hd, hd2, hg1, hg2⟩ :=
    setPhase_jobs_eq s j p hInv.pairGid hj
  have hmem2 : ∀ k ∈ (setPhase s j.gid p).jobs,
      k = { j with phase := p } ∨ (k ∈ s.jobs ∧ k.gid ≠ j.gid) := by
    intro k hk
    rw [hd2] at hk
    rcases List.mem_append.mp hk with hk1 | hk1
    · exact Or.inr ⟨hd ▸ List.mem_append_left _ hk1, hg1 k hk1⟩
    · rcases List.mem_cons.mp hk1 with hk2 | hk2
      · exact Or.inl hk2
      · exact Or.inr ⟨hd ▸ List.mem_append_right _
          (List.mem_cons_of_mem _ hk2), hg2 k hk2⟩
  have hmemold : ∀ k ∈ (setPhase s j.gid p).jobs, ∃ k0 ∈ s.jobs,
      k.gid = k0.gid ∧ k.idx = k0.idx ∧ k.ok = k0.ok := by
    intro k hk
    rcases hmem2 k hk with hk1 | ⟨hk1, _⟩
    · exact ⟨j, hj, by rw [hk1], by rw [hk1], by rw [hk1]⟩
    · exact ⟨k, hk1, rfl, rfl, rfl⟩
  constructor
  · exact hInv.nip_le
  · intro k hk
    obtain ⟨k0, hk0, _, hi, _⟩ := hmemold k hk
    rw [setPhase_taskCount, hi]
    exact hInv.idx_lt k0 hk0
  · intro k hk
    obtain ⟨k0, hk0, hgd, _, _⟩ := hmemold k hk
    rw [setPhase_nextGid, hgd]
    exact hInv.gid_lt k0 hk0
  · rw [hd2]
    have := hd ▸ hInv.pairIdx
    rw [List.pairwise_append] at this ⊢
    refine ⟨this.1, ?_, ?_⟩
    · have h2 := this.2.1
      rw [List.pairwise_cons] at h2 ⊢
      exact ⟨fun b hb => h2.1 b hb, h2.2⟩
    · intro a ha b hb
      rcases List.mem_cons.mp hb with hb1 | hb1
      · subst hb1
        exact this.2.2 a ha j (List.mem_cons_self j l2)
      · exact this.2.2 a ha b (List.mem_cons_of_mem _ hb1)
  · rw [hd2]
    have := hd ▸ hInv.pairGid
    rw [List.pairwise_append] at this ⊢
    refine ⟨this.1, ?_, ?_⟩
    · have h2 := this.2.1
      rw [List.pairwise_cons] at h2 ⊢
      exact ⟨fun b hb => h2.1 b hb, h2.2⟩
    · intro a ha b hb
      rcases List.mem_cons.mp hb with hb1 | hb1
      · subst hb1
        exact this.2.2 a ha j (List.mem_cons_self j l2)
      · exact this.2.2 a ha b (List.mem_cons_of_mem _ hb1)
  · intro k hk
    obtain ⟨k0, hk0, _, hi, _⟩ := hmemold k hk
    rw [setPhase_nip, hi]
    exact hInv.idx_ge k0 hk0
  · intro k hk hkp
    rcases hmem2 k hk with hk1 | ⟨hk1, _⟩
    · rw [hk1, setPhase_nip]
      exact hidx
    · exact hInv.passed_eq k hk1 hkp
  · intro k hk m hm hlt
    obtain ⟨k0, hk0, hkg, hki, _⟩ := hmemold k hk
    obtain ⟨m0, hm0, hmg, hmi, _⟩ := hmemold m hm
    rw [hkg, hmg]
    exact hInv.mono k0 hk0 m0 hm0 (by rw [← hki, ← hmi]; exact hlt)
  · rw [setPhase_emitted, setPhase_nextGid]
    exact hInv.emitted_lt
  · rw [setPhase_emitted]
    exact hInv.emitted_sorted
  · intro g hg k hk hkp
    rw [setPhase_emitted] at hg
    rcases hmem2 k hk with hk1 | ⟨hk1, _⟩
    · have : g < j.gid := hInv.emitted_before g hg j hj hold
      rw [hk1]
      exact this
    · exact hInv.emitted_before g hg k hk1 hkp
  · intro i hi1 hi2
    rw [setPhase_nip] at hi1
    rw [setPhase_taskCount] at hi2
    obtain ⟨k0, hk0, hki⟩ := hInv.range_full i hi1 hi2
    rw [hd] at hk0
    rcases List.mem_append.mp hk0 with hk1 | hk1
    · exact ⟨k0, by rw [hd2]; exact List.mem_append_left _ hk1, hki⟩
    · rcases List.mem_cons.mp hk1 with hk2 | hk2
      · refine ⟨{ j with phase := p }, ?_, ?_⟩
        · rw [hd2]
          exact List.mem_append_right _ (List.mem_cons_self _ _)
        · show j.idx = i
          rw [← hk2]
          exact hki
      · exact ⟨k0, by
          rw [hd2]
          exact List.mem_append_right _ (List.mem_cons_of_mem _ hk2), hki⟩

/-- Invariant preservation for a successful emission: the barrier-holding
job hands its payload to the sink and moves to its finally block. -/
theorem ttsInv_emitState (s : TTSState) (j : SpeakJob)
    (hInv : TTSInv s) (hj : j ∈ s.jobs) (hp : j.phase = .awaitSynth) :
    TTSInv { setPhase s j.gid .inFinally with
      emitted := s.emitted ++ [j.gid] } := by
  have hold : j.phase ≠ .inFinally := by simp [hp]
  have hidx : j.idx = s.nextIndexToPlay :=
    hInv.passed_eq j hj (by simp [hp])
  have hbase : TTSInv (setPhase s j.gid .inFinally) :=
    ttsInv_setPhase s j _ hInv hj hidx hold
  obtain ⟨l1, l2, hd, hd2, hg1, hg2⟩ :=
    setPhase_jobs_eq s j .inFinally hInv.pairGid hj
  constructor
  · exact hbase.nip_le
  · exact hbase.idx_lt
  · exact hbase.gid_lt
  · exact hbase.pairIdx
  · exact hbase.pairGid
  · exact hbase.idx_ge
  · exact hbase.passed_eq
  · exact hbase.mono
  · intro g hg
    rcases List.mem_append.mp hg with hg0 | hg0
    · exact hInv.emitted_lt g hg0
    · rw [List.mem_singleton.mp hg0]
      exact hInv.gid_lt j hj
  · show (s.emitted ++ [j.gid]).Chain' (· < ·)
    rw [List.chain'_append]
    refine ⟨hInv.emitted_sorted, List.chain'_singleton _, ?_⟩
    intro x hx y hy
    have hxm : x ∈ s.emitted := List.mem_of_mem_getLast? hx
    have hym : y = j.gid := by
      simp only [List.head?] at hy
      exact (Option.mem_some_iff.mp hy).symm
    rw [hym]
    exact hInv.emitted_before x hxm j hj hold
  · intro g hg k hk hkp
    have hk2 : k ∈ (setPhase s j.gid .inFinally).jobs := hk
    rw [hd2] at hk2
    have hkold : k ∈ s.jobs ∧ k.gid ≠ j.gid := by
      rcases List.mem_append.mp hk2 with hk3 | hk3
      · exact ⟨hd ▸ List.mem_append_left _ hk3, hg1 k hk3⟩
      · rcases List.mem_cons.mp hk3 with hk4 | hk4
        · exact absurd (by rw [hk4]) hkp
        · exact ⟨hd ▸ List.mem_append_right _
            (List.mem_cons_of_mem _ hk4), hg2 k hk4⟩
    rcases List.mem_append.mp hg with hg0 | hg0
    · exact hInv.emitted_before g hg0 k hkold.1 (by
        intro hcf
        exact hkp hcf)
    · rw [List.mem_singleton.mp hg0]
      have hkne : k ≠ j := fun hkj => hkold.2 (by rw [hkj])
      have hkidx : j.idx < k.idx := by
        have hge := hInv.idx_ge k hkold.1
        rcases Nat.lt_or_ge j.idx k.idx with hlt | hge2
        · exact hlt
        · exfalso
          have : k.idx = j.idx := by omega
          exact hkne (pairwise_proj_inj hInv.pairIdx hkold.1 hj this)
      exact hInv.mono j hj k hkold.1 hkidx
  · exact hbase.range_full

/-- Invariant preservation for the submission prologue of `speak`. -/
theorem ttsInv_submit (s : TTSState) (sentence : String) (ok : Bool)
    (hInv : TTSInv s) : TTSInv (speak_submit sentence ok s) := by
  unfold speak_submit
  by_cases hg : (sentence.isEmpty || sentence.data.all Char.isWhitespace) = true
  · rw [if_pos hg]
    exact hInv
  · rw [if_neg hg]
    have hmem : ∀ k ∈ s.jobs ++ [(⟨s.nextGid, s.taskCount, ok,
        .atBarrier⟩ : SpeakJob)],
        k ∈ s.jobs ∨ k = ⟨s.nextGid, s.taskCount, ok, .atBarrier⟩ := by
      intro k hk
      rcases List.mem_append.mp hk with h1 | h1
      · exact Or.inl h1
      · exact Or.inr (List.mem_singleton.mp h1)
    constructor
    · exact Nat.le_succ_of_le hInv.nip_le
    · intro k hk
      rcases hmem k hk with h1 | h1
      · exact Nat.lt_succ_of_lt (hInv.idx_lt k h1)
      · rw [h1]
        exact Nat.lt_succ_self _
    · intro k hk
      rcases hmem k hk with h1 | h1
      · exact Nat.lt_succ_of_lt (hInv.gid_lt k h1)
      · rw [h1]
        exact Nat.lt_succ_self _
    · rw [List.pairwise_append]
      refine ⟨hInv.pairIdx, List.pairwise_singleton _ _, ?_⟩
      intro a ha b hb
      rw [List.mem_singleton.mp hb]
      exact Nat.ne_of_lt (hInv.idx_lt a ha)
    · rw [List.pairwise_append]
      refine ⟨hInv.pairGid, List.pairwise_singleton _ _, ?_⟩
      intro a ha b hb
      rw [List.mem_singleton.mp hb]
      exact Nat.ne_of_lt (hInv.gid_lt a ha)
    · intro k hk
      rcases hmem k hk with h1 | h1
      · exact hInv.idx_ge k h1
      · rw [h1]
        exact hInv.nip_le
    · intro k hk hkp
      rcases hmem k hk with h1 | h1
      · exact hInv.passed_eq k h1 hkp
      · exact absurd (by rw [h1]) hkp
    · intro a ha b hb hlt
      rcases hmem a ha with h1 | h1 <;> rcases hmem b hb with h2 | h2
      · exact hInv.mono a h1 b h2 hlt
      · rw [h2]
        exact hInv.gid_lt a h1
      · exfalso
        have hb2 := hInv.idx_lt b h2
        rw [h1] at hlt
        simp only at hlt
        omega
      · rw [h1, h2] at hlt
        exact absurd hlt (lt_irrefl _)
    · intro g hg2
      exact Nat.lt_succ_of_lt (hInv.emitted_lt g hg2)
    · exact hInv.emitted_sorted
    · intro g hg2 k hk hkp
      rcases hmem k hk with h1 | h1
      · exact hInv.emitted_before g hg2 k h1 hkp
      · rw [h1]
        exact hInv.emitted_lt g hg2
    · intro i hi1 hi2
      simp only at hi1 hi2
      rcases Nat.lt_or_ge i s.taskCount with hlt | hge
      · obtain ⟨k, hk, hki⟩ := hInv.range_full i hi1 hlt
        exact ⟨k, List.mem_append_left _ hk, hki⟩
      · have : i = s.taskCount := by omega
        refine ⟨⟨s.nextGid, s.taskCount, ok, .atBarrier⟩,
          List.mem_append_right _ (List.mem_singleton_self _), ?_⟩
        rw [this]

/-- Invariant preservation for the `finally` block. -/
theorem ttsInv_finish (s : TTSState) (j : SpeakJob) (hInv : TTSInv s)
    (hj : j ∈ s.jobs) (hp : j.phase = .inFinally) :
    TTSInv (finishJob s j) := by
  have hidx : j.idx = s.nextIndexToPlay :=
    hInv.passed_eq j hj (by simp [hp])
  have htc : 0 < s.taskCount := Nat.lt_of_le_of_lt (Nat.zero_le _) (hInv.idx_lt j hj)
  obtain ⟨l1, l2, hd, hd2, hg1, hg2⟩ := finishJob_jobs_eq s j hInv.pairGid hj
  have hkmem : ∀ k ∈ (finishJob s j).jobs, k ∈ s.jobs ∧ k.gid ≠ j.gid := by
    intro k hk
    rw [hd2] at hk
    rcases List.mem_append.mp hk with h1 | h1
    · exact ⟨hd ▸ List.mem_append_left _ h1, hg1 k h1⟩
    · exact ⟨hd ▸ List.mem_append_right _ (List.mem_cons_of_mem _ h1),
        hg2 k h1⟩
  have hk_gt : ∀ k ∈ (finishJob s j).jobs, s.nextIndexToPlay < k.idx := by
    intro k hk
    obtain ⟨hks, hkg⟩ := hkmem k hk
    have hge := hInv.idx_ge k hks
    rcases Nat.lt_or_ge s.nextIndexToPlay k.idx with hlt | hge2
    · exact hlt
    · exfalso
      have hki : k.idx = j.idx := by omega
      exact hkg (by
        rw [pairwise_proj_inj hInv.pairIdx hks hj hki])
  have hsub : (finishJob s j).jobs.Sublist s.jobs := by
    rw [hd2, hd]
    exact List.Sublist.append (List.Sublist.refl l1) (List.sublist_cons_self _ _)
  obtain ⟨hbranch, hem, hgidEq⟩ := finishJob_counters s j
  rcases hbranch with ⟨hc, h0, h1⟩ | ⟨hc, h0, h1⟩
  · -- clear branch: no other coroutine can remain
    have hempty : (finishJob s j).jobs = [] := by
      rw [List.eq_nil_iff_forall_not_mem]
      intro k hk
      have h2 := hk_gt k hk
      have h3 := hInv.idx_lt k (hkmem k hk).1
      omega
    constructor
    · rw [h0, h1]
    · intro k hk
      rw [hempty] at hk
      cases hk
    · intro k hk
      rw [hempty] at hk
      cases hk
    · rw [hempty]
      exact List.Pairwise.nil
    · rw [hempty]
      exact List.Pairwise.nil
    · intro k hk
      rw [hempty] at hk
      cases hk
    · intro k hk
      rw [hempty] at hk
      cases hk
    · intro k hk
      rw [hempty] at hk
      cases hk
    · intro g hg2
      rw [hem] at hg2
      rw [hgidEq]
      exact hInv.emitted_lt g hg2
    · rw [hem]
      exact hInv.emitted_sorted
    · intro g hg2 k hk
      rw [hempty] at hk
      cases hk
    · intro i hi1 hi2
      rw [h1] at hi2
      exact absurd hi2 (Nat.not_lt_zero i)
  · -- no clear: barrier advances past the finished index
    constructor
    · rw [h0, h1]
      have := hInv.idx_lt j hj
      omega
    · intro k hk
      rw [h1]
      exact hInv.idx_lt k (hkmem k hk).1
    · intro k hk
      rw [hgidEq]
      exact hInv.gid_lt k (hkmem k hk).1
    · exact hInv.pairIdx.sublist hsub
    · exact hInv.pairGid.sublist hsub
    · intro k hk
      rw [h0]
      exact hk_gt k hk
    · intro k hk hkp
      exfalso
      have h2 := hInv.passed_eq k (hkmem k hk).1 hkp
      have h3 := hk_gt k hk
      omega
    · intro a ha b hb hlt
      exact hInv.mono a (hkmem a ha).1 b (hkmem b hb).1 hlt
    · intro g hg2
      rw [hem] at hg2
      rw [hgidEq]
      exact hInv.emitted_lt g hg2
    · rw [hem]
      exact hInv.emitted_sorted
    · intro g hg2 k hk hkp
      rw [hem] at hg2
      exact hInv.emitted_before g hg2 k (hkmem k hk).1 hkp
    · intro i hi1 hi2
      rw [h0] at hi1
      rw [h1] at hi2
      obtain ⟨k, hk, hki⟩ := hInv.range_full i (by omega) hi2
      have hkne : k ≠ j := by
        intro hkj
        rw [hkj] at hki
        omega
      refine ⟨k, ?_, hki⟩
      rw [hd2]
      rw [hd] at hk
      rcases List.mem_append.mp hk with h2 | h2
      · exact List.mem_append_left _ h2
      · rcases List.mem_cons.mp h2 with h3 | h3
        · exact absurd h3 hkne
        · exact List.mem_append_right _ h3

/-- Single-step invariant preservation. -/
theorem ttsInv_step {s : TTSState} {l : TTSLabel} {s2 : TTSState}
    (hInv : TTSInv s) (h : TTSStep s l s2) : TTSInv s2 := by
  cases h with
  | submit sentence ok => exact ttsInv_submit s sentence ok hInv
  | pass j hj hp hg =>
      exact ttsInv_setPhase s j _ hInv hj hg (by simp [hp])
  | emit j hj hp hok => exact ttsInv_emitState s j hInv hj hp
  | skip j hj hp =>
      exact ttsInv_setPhase s j _ hInv hj
        (hInv.passed_eq j hj (by simp [hp])) (by simp [hp])
  | finish j hj hp => exact ttsInv_finish s j hInv hj hp

/-- Every reachable manager state satisfies the invariant. -/
theorem tts_inv {s : TTSState} (h : TTSReach s) : TTSInv s := by
  induction h with
  | init =>
      constructor <;> simp [TTSState.init]
  | step hr hs ih => exact ttsInv_step ih hs

/-- `finishJob` leaves exactly the other coroutines, in both branches. -/
theorem finishJob_jobs (s : TTSState) (j : SpeakJob) :
    (finishJob s j).jobs = s.jobs.filter (fun k => k.gid != j.gid) := by
  unfold finishJob
  by_cases hc : j.idx = s.taskCount - 1 <;> simp [hc]

/-- In a nonempty invariant state, some coroutine holds the barrier index,
and `find?` locates it. -/
theorem tts_find_barrier (s : TTSState) (hInv : TTSInv s)
    (hne : s.jobs ≠ []) :
    ∃ j, s.jobs.find? (fun j => j.idx == s.nextIndexToPlay) = some j ∧
      j ∈ s.jobs ∧ j.idx = s.nextIndexToPlay := by
  have hlt : s.nextIndexToPlay < s.taskCount := by
    obtain ⟨j0, hj0⟩ := List.exists_mem_of_ne_nil s.jobs hne
    have h1 := hInv.idx_ge j0 hj0
    have h2 := hInv.idx_lt j0 hj0
    omega
  obtain ⟨k, hk, hki⟩ := hInv.range_full s.nextIndexToPlay le_rfl hlt
  have hsome : (s.jobs.find? (fun j => j.idx == s.nextIndexToPlay)).isSome := by
    rw [List.find?_isSome]
    exact ⟨k, hk, by simp [hki]⟩
  obtain ⟨j, hj⟩ := Option.isSome_iff_exists.mp hsome
  refine ⟨j, hj, List.mem_of_find?_eq_some hj, ?_⟩
  have := List.find?_some hj
  simpa using this

/-- Unfolding of the completion scheduler at a located job. -/
theorem driveStep_eq_found (s : TTSState) (j : SpeakJob)
    (hfind : s.jobs.find? (fun j => j.idx == s.nextIndexToPlay) = some j) :
    driveStep s =
      match j.phase with
      | .atBarrier => setPhase s j.gid .awaitSynth
      | .awaitSynth =>
          if j.ok then
            { setPhase s j.gid .inFinally with
              emitted := s.emitted ++ [j.gid] }
          else setPhase s j.gid .inFinally
      | .inFinally => finishJob s j := by
  unfold driveStep
  rw [hfind]

/-- The completion scheduler takes a genuine semantic step. -/
theorem driveStep_step (s : TTSState) (hInv : TTSInv s)
    (hne : s.jobs ≠ []) : ∃ l, TTSStep s l (driveStep s) := by
  obtain ⟨j, hfind, hj, hidx⟩ := tts_find_barrier s hInv hne
  rw [driveStep_eq_found s j hfind]
  cases hph : j.phase with
  | atBarrier => exact ⟨_, TTSStep.pass s j hj hph hidx⟩
  | awaitSynth =>
      cases hok : j.ok with
      | true =>
          rw [if_pos rfl]
          exact ⟨_, TTSStep.emit s j hj hph hok⟩
      | false =>
          rw [if_neg (by simp)]
          exact ⟨_, TTSStep.skip s j hj hph⟩
  | inFinally => exact ⟨_, TTSStep.finish s j hj hph⟩

/-- Measure bookkeeping for a phase change. -/
theorem setPhase_measure (s : TTSState) (j : SpeakJob) (p : SpeakPhase)
    (hpair : s.jobs.Pairwise fun a b => a.gid ≠ b.gid) (hj : j ∈ s.jobs) :
    ttsMeasure (setPhase s j.gid p) + phaseWeight j.phase =
      ttsMeasure s + phaseWeight p := by
  obtain ⟨l1, l2, hd, hd2, _, _⟩ := setPhase_jobs_eq s j p hpair hj
  unfold ttsMeasure
  rw [hd2, hd]
  simp only [List.map_append, List.map_cons, List.sum_append, List.sum_cons]
  omega

/-- Measure bookkeeping for the `finally` block. -/
theorem finishJob_measure (s : TTSState) (j : SpeakJob)
    (hpair : s.jobs.Pairwise fun a b => a.gid ≠ b.gid) (hj : j ∈ s.jobs) :
    ttsMeasure (finishJob s j) + phaseWeight j.phase = ttsMeasure s := by
  obtain ⟨l1, l2, hd, hd2, _, _⟩ := finishJob_jobs_eq s j hpair hj
  unfold ttsMeasure
  rw [hd2, hd]
  simp only [List.map_append, List.map_cons, List.sum_append, List.sum_cons]
  omega

/-- The completion scheduler strictly decreases the measure. -/
theorem driveStep_measure (s : TTSState) (hInv : TTSInv s)
    (hne : s.jobs ≠ []) : ttsMeasure (driveStep s) < ttsMeasure s := by
  obtain ⟨j, hfind, hj, hidx⟩ := tts_find_barrier s hInv hne
  rw [driveStep_eq_found s j hfind]
  cases hph : j.phase with
  | atBarrier =>
      have hm := setPhase_measure s j .awaitSynth hInv.pairGid hj
      rw [hph] at hm
      simp only [phaseWeight] at hm
      show ttsMeasure (setPhase s j.gid .awaitSynth) < ttsMeasure s
      omega
  | awaitSynth =>
      cases hok : j.ok with
      | true =>
          rw [if_pos rfl]
          have hm := setPhase_measure s j .inFinally hInv.pairGid hj
          rw [hph] at hm
          simp only [phaseWeight] at hm
          show ttsMeasure (setPhase s j.gid .inFinally) < ttsMeasure s
          omega
      | false =>
          rw [if_neg (by simp)]
          have hm := setPhase_measure s j .inFinally hInv.pairGid hj
          rw [hph] at hm
          simp only [phaseWeight] at hm
          show ttsMeasure (setPhase s j.gid .inFinally) < ttsMeasure s
          omega
  | inFinally =>
      have hm := finishJob_measure s j hInv.pairGid hj
      rw [hph] at hm
      simp only [phaseWeight] at hm
      show ttsMeasure (finishJob s j) < ttsMeasure s
      omega

/-- Fuelled completion: from any invariant state with enough fuel, the
scheduler reaches the all-done state along genuine semantic steps. -/
theorem drainAux_spec (n : Nat) : ∀ s : TTSState, TTSInv s →
    ttsMeasure s ≤ n →
    TTSExec s (drainAux n s) ∧ (drainAux n s).jobs = [] ∧
      TTSInv (drainAux n s) := by
  induction n with
  | zero =>
      intro s hInv hm
      have hnil : s.jobs = [] := by
        cases hjobs : s.jobs with
        | nil => rfl
        | cons a t =>
            exfalso
            have h1 : 1 ≤ ttsMeasure s := by
              unfold ttsMeasure
              rw [hjobs]
              simp only [List.map_cons, List.sum_cons]
              have : 1 ≤ phaseWeight a.phase := by
                cases a.phase <;> simp [phaseWeight]
              omega
            omega
      simp only [drainAux]
      exact ⟨Relation.ReflTransGen.refl, hnil, hInv⟩
  | succ n ih =>
      intro s hInv hm
      simp only [drainAux]
      by_cases hje : s.jobs.isEmpty = true
      · rw [if_pos hje]
        exact ⟨Relation.ReflTransGen.refl, List.isEmpty_iff.mp hje, hInv⟩
      · rw [if_neg hje]
        have hne : s.jobs ≠ [] := fun hh => hje (by simp [hh])
        obtain ⟨l, hstep⟩ := driveStep_step s hInv hne
        have hInv2 := ttsInv_step hInv hstep
        have hm2 : ttsMeasure (driveStep s) ≤ n := by
          have := driveStep_measure s hInv hne
          omega
        obtain ⟨hex, hempty, hinv3⟩ := ih (driveStep s) hInv2 hm2
        exact ⟨Relation.ReflTransGen.head ⟨l, hstep⟩ hex, hempty, hinv3⟩

/-- The completion scheduler preserves `willEmit`. -/
theorem driveStep_willEmit (s : TTSState) (hInv : TTSInv s)
    (hne : s.jobs ≠ []) (g : Nat) (hw : willEmit g s) :
    willEmit g (driveStep s) := by
  obtain ⟨j0, hfind, hj0, hidx⟩ := tts_find_barrier s hInv hne
  rw [driveStep_eq_found s j0 hfind]
  rcases hw with ⟨j, hj, hjg, hjok, hjp⟩ | hg
  · by_cases hjj : j = j0
    · subst hjj
      cases hph : j.phase with
      | atBarrier =>
          left
          refine ⟨{ j with phase := .awaitSynth }, ?_, hjg, hjok, by simp⟩
          simp only [setPhase, List.mem_map]
          exact ⟨j, hj, by rw [if_pos rfl]⟩
      | awaitSynth =>
          rw [hjok, if_pos rfl]
          right
          simp only [List.mem_append, List.mem_singleton]
          exact Or.inr hjg.symm
      | inFinally => exact absurd hph hjp
    · have hgid : j.gid ≠ j0.gid := fun he =>
        hjj (pairwise_proj_inj hInv.pairGid hj hj0 he)
      have hmem : ∀ p, j ∈ (setPhase s j0.gid p).jobs := by
        intro p
        simp only [setPhase, List.mem_map]
        exact ⟨j, hj, by rw [if_neg hgid]⟩
      cases hph : j0.phase with
      | atBarrier => exact Or.inl ⟨j, hmem _, hjg, hjok, hjp⟩
      | awaitSynth =>
          cases hok0 : j0.ok with
          | true =>
              rw [if_pos rfl]
              exact Or.inl ⟨j, hmem _, hjg, hjok, hjp⟩
          | false =>
              rw [if_neg (by simp)]
              exact Or.inl ⟨j, hmem _, hjg, hjok, hjp⟩
      | inFinally =>
          left
          refine ⟨j, ?_, hjg, hjok, hjp⟩
          rw [finishJob_jobs]
          rw [List.mem_filter]
          exact ⟨hj, by simpa using hgid⟩
  · right
    cases hph : j0.phase with
    | atBarrier => exact hg
    | awaitSynth =>
        cases hok0 : j0.ok with
        | true =>
            rw [if_pos rfl]
            exact List.mem_append_left _ hg
        | false =>
            rw [if_neg (by simp)]
            exact hg
    | inFinally =>
        have := (finishJob_counters s j0).2.1
        rw [this]
        exact hg

/-- The fuelled scheduler preserves `willEmit`. -/
theorem drainAux_willEmit (n : Nat) : ∀ s : TTSState, TTSInv s → ∀ g : Nat,
    willEmit g s → willEmit g (drainAux n s) := by
  induction n with
  | zero =>
      intro s hInv g hw
      simpa [drainAux] using hw
  | succ n ih =>
      intro s hInv g hw
      simp only [drainAux]
      by_cases hje : s.jobs.isEmpty = true
      · rw [if_pos hje]
        exact hw
      · rw [if_neg hje]
        have hne : s.jobs ≠ [] := fun hh => hje (by simp [hh])
        obtain ⟨l, hstep⟩ := driveStep_step s hInv hne
        exact ih (driveStep s) (ttsInv_step hInv hstep) g
          (driveStep_willEmit s hInv hne g hw)

/-- **C1**: within one turn the manager hands synthesis results to the
output sink in exactly submission order: in every reachable state the
ghost submission serials in `emitted` are strictly increasing (serials
are assigned 0,1,2,... at submission), and an `emit` transition for a job
of index `i` can only fire in a state whose `next_index_to_play` equals
`i` — so a job whose synthesis finished early stays blocked at the
barrier until its index is reached, independent of completion order. -/
theorem tts_emission_order (s : TTSState) (h : TTSReach s) :
    s.emitted.Chain' (· < ·) ∧
    (∀ (l : TTSLabel) (s2 : TTSState), TTSStep s l s2 →
      ∀ g i, l = .emit g i → s.nextIndexToPlay = i) := by
  refine ⟨(tts_inv h).emitted_sorted, ?_⟩
  intro l s2 hstep g i hl
  cases hstep with
  | submit sentence ok => simp at hl
  | pass j hj hp hg => simp at hl
  | emit j hj hp hok =>
      have hji : j.idx = i := by
        injection hl
      rw [← hji]
      exact ((tts_inv h).passed_eq j hj (by simp [hp])).symm
  | skip j hj hp => simp at hl
  | finish j hj hp => simp at hl

/-- Closed witness applying the C1 theorem on a concrete reachable state
with one job past the barrier, at a concrete emit transition. -/
theorem tts_emission_order_witness :
    (⟨0, 1, [⟨0, 0, true, .awaitSynth⟩], [], 1⟩ : TTSState).emitted.Chain'
      (· < ·) ∧
    (⟨0, 1, [⟨0, 0, true, .awaitSynth⟩], [], 1⟩ :
      TTSState).nextIndexToPlay = 0 := by
  have e1 : speak_submit "hi" true TTSState.init =
      ⟨0, 1, [⟨0, 0, true, .atBarrier⟩], [], 1⟩ := by decide
  have r1 : TTSReach (⟨0, 1, [⟨0, 0, true, .atBarrier⟩], [], 1⟩ :
      TTSState) :=
    e1 ▸ TTSReach.step TTSReach.init (TTSStep.submit TTSState.init "hi" true)
  have e2 : setPhase ⟨0, 1, [⟨0, 0, true, .atBarrier⟩], [], 1⟩
      (0 : Nat) .awaitSynth = ⟨0, 1, [⟨0, 0, true, .awaitSynth⟩], [], 1⟩ := by
    decide
  have r2 : TTSReach (⟨0, 1, [⟨0, 0, true, .awaitSynth⟩], [], 1⟩ :
      TTSState) :=
    e2 ▸ TTSReach.step r1
      (TTSStep.pass _ ⟨0, 0, true, .atBarrier⟩ (by decide) rfl rfl)
  have h := tts_emission_order _ r2
  refine ⟨h.1, ?_⟩
  exact h.2 (.emit 0 0) _
    (TTSStep.emit _ ⟨0, 0, true, .awaitSynth⟩ (by decide) rfl rfl) 0 0 rfl

/-- **C3**: from every reachable manager state, the turn drains: along
genuine semantic steps all coroutines (including failing ones, which
increment the barrier once in their finally block and emit nothing)
terminate, the job list empties, the emission log stays strictly ordered,
and every not-yet-started job whose synthesis will succeed is still
emitted — a single job failure never deadlocks the remaining jobs. -/
theorem tts_drain_liveness (s : TTSState) (h : TTSReach s) :
    TTSExec s (drain s) ∧ (drain s).jobs = [] ∧
    (drain s).emitted.Chain' (· < ·) ∧
    (∀ j ∈ s.jobs, j.ok = true → j.phase = .atBarrier →
      j.gid ∈ (drain s).emitted) := by
  have hInv := tts_inv h
  obtain ⟨hex, hempty, hinv2⟩ := drainAux_spec (ttsMeasure s) s hInv le_rfl
  refine ⟨hex, hempty, hinv2.emitted_sorted, ?_⟩
  intro j hj hok hph
  have hw : willEmit j.gid s := Or.inl ⟨j, hj, rfl, hok, by simp [hph]⟩
  have hw2 := drainAux_willEmit (ttsMeasure s) s hInv j.gid hw
  rcases hw2 with ⟨k, hk, _⟩ | hg
  · have hknil : k ∈ ([] : List SpeakJob) := by
      rw [← hempty]
      exact hk
    cases hknil
  · exact hg

/-- Closed witness applying the C3 theorem on a concrete reachable state
holding one failing job (serial 0) and one succeeding job (serial 1). -/
theorem tts_drain_liveness_witness :
    TTSExec ⟨0, 2, [⟨0, 0, false, .atBarrier⟩, ⟨1, 1, true, .atBarrier⟩],
        [], 2⟩
      (drain ⟨0, 2, [⟨0, 0, false, .atBarrier⟩, ⟨1, 1, true, .atBarrier⟩],
        [], 2⟩) ∧
    (drain ⟨0, 2, [⟨0, 0, false, .atBarrier⟩, ⟨1, 1, true, .atBarrier⟩],
      [], 2⟩).jobs = [] ∧
    (1 : Nat) ∈ (drain ⟨0, 2, [⟨0, 0, false, .atBarrier⟩,
      ⟨1, 1, true, .atBarrier⟩], [], 2⟩).emitted := by
  have e1 : speak_submit "a" false TTSState.init =
      ⟨0, 1, [⟨0, 0, false, .atBarrier⟩], [], 1⟩ := by decide
  have r1 : TTSReach (⟨0, 1, [⟨0, 0, false, .atBarrier⟩], [], 1⟩ :
      TTSState) :=
    e1 ▸ TTSReach.step TTSReach.init (TTSStep.submit TTSState.init "a" false)
  have e2 : speak_submit "b" true ⟨0, 1, [⟨0, 0, false, .atBarrier⟩], [], 1⟩ =
      ⟨0, 2, [⟨0, 0, false, .atBarrier⟩, ⟨1, 1, true, .atBarrier⟩], [], 2⟩ := by
    decide
  have r2 : TTSReach (⟨0, 2, [⟨0, 0, false, .atBarrier⟩,
      ⟨1, 1, true, .atBarrier⟩], [], 2⟩ : TTSState) :=
    e2 ▸ TTSReach.step r1 (TTSStep.submit _ "b" true)
  have h := tts_drain_liveness _ r2
  exact ⟨h.1, h.2.1, h.2.2.2 ⟨1, 1, true, .atBarrier⟩ (by decide) rfl rfl⟩

/-- **C9**: calling `speak` with an empty or whitespace-only source text
returns before creating a synthesis job: the whole manager state — task
list and `next_index_to_play` barrier counter included — is unchanged, so
no sequence index is consumed. -/
theorem speak_empty_skip (sentence : String) (ok : Bool) (s : TTSState)
    (h : sentence.data.all Char.isWhitespace = true) :
    speak_submit sentence ok s = s := by
  unfold speak_submit
  rw [if_pos (by rw [h, Bool.or_true])]

/-- Closed witness applying the C9 theorem to whitespace-only input. -/
theorem speak_empty_skip_witness :
    speak_submit " " true ⟨2, 3, [], [], 4⟩ = ⟨2, 3, [], [], 4⟩ :=
  speak_empty_skip " " true _ (by decide)

end OLVW

